import Mathlib

/-!
Rendering of HTML nodes in gomponents: a shallow embedding of `gomponents.go`.

A Go `string` is modelled by a Lean `String` (the valid UTF-8 strings), a
`strings.Builder` by a `String` that is appended to, a panic by `Except.error`
carrying the panic message, and a Go closure `func() string` by a pure function
`Unit → String`.

The interface `Node` has two kinds of dynamic value in this package: the
struct `attr` and the function type `NodeFunc` (what `El`, `Text` and `Raw`
return, and what a caller wraps a rendering function in).

A tree as a caller writes it, with nested calls of `El`, `Attr`, `Text` and
`Raw`, is a term of the type `Markup`, evaluated to a node by `Markup.build`.
The namespace `Counted` holds the same code run in a state that counts the
invocations of `Render`; `Markup.buildCounted` evaluates a term to such a node.
The namespace `Mem` holds the same code run on a store of `string` variables,
where `Attr` keeps the pointer `&value[0]` and a caller's closure may read and
write the variables it captures.

`Text` calls `template.HTMLEscaper` of the Go standard library (`html/template`,
which forwards to `text/template`, file `funcs.go`).  The definitions
`htmlEscapeByte`, `HTMLEscape`, `containsSpecial`, `HTMLEscapeString` and
`HTMLEscaper` below follow that library code.  The bytes it tests are all
ASCII, and in UTF-8 an ASCII byte occurs only as a character of its own, so the
loop over bytes is written as a loop over characters.
-/

namespace Gomponents

/-- NodeFunc is a render function that is also a Node (`type NodeFunc func() string`). -/
abbrev NodeFunc := Unit → String

/-- The method `func (n NodeFunc) Render() string { return n() }`. -/
def NodeFunc.Render (n : NodeFunc) : String := n ()

/-- The struct `attr`: a name and a `*string` value, `none` being the nil pointer. -/
structure attr where
  name : String
  value : Option String

/-- The method `func (a attr) Render() string`: `fmt.Sprintf` with the verb `%v`
on a string operand writes the string itself. -/
def attr.Render (a : attr) : String :=
  match a.value with
  | none => " " ++ a.name
  | some v => " " ++ a.name ++ "=\"" ++ v ++ "\""

/-- A value of the interface `Node`, tagged with its dynamic type. -/
inductive Node where
  | ofAttr (a : attr)
  | ofNodeFunc (f : NodeFunc)

/-- Dynamic dispatch of `Render()` on a `Node`. -/
def Node.Render : Node → String
  | .ofAttr a => a.Render
  | .ofNodeFunc f => f.Render

/-- The type assertion `_, ok := c.(attr)`. -/
def Node.isAttr : Node → Bool
  | .ofAttr _ => true
  | .ofNodeFunc _ => false

/-- One iteration of the loop `for _, c := range children` of `El`, on the pair
of builders `(attrString, childrenString)`. -/
def El.step (acc : String × String) (c : Node) : String × String :=
  let s := c.Render
  if c.isAttr then (acc.1 ++ s, acc.2)
  else (acc.1, acc.2 ++ c.Render)

/-- The function `El`: an element node with a name and child nodes. -/
def El (name : String) (children : List Node) : NodeFunc := fun _ =>
  let b := "<" ++ name
  if children.length = 0 then
    b ++ "/>"
  else
    let acc := children.foldl El.step ("", "")
    let b := b ++ acc.1
    if acc.2.utf8ByteSize = 0 then
      b ++ "/>"
    else
      b ++ ">" ++ acc.2 ++ "</" ++ name ++ ">"

/-- The function `Attr`: zero values give a name-only attribute, one value a
name-value attribute, more values panic. -/
def Attr (name : String) (value : List String) : Except String Node :=
  match value with
  | [] => .ok (.ofAttr { name := name, value := none })
  | [v] => .ok (.ofAttr { name := name, value := some v })
  | _ :: _ :: _ => .error "attribute must be just name or name and value pair"

/-- The replacement the loop of `text/template.HTMLEscape` writes for one byte,
by its `switch c`: `htmlNull` (U+FFFD) for `'\000'`, `htmlQuot` (`&#34;`) for the
double quote (code 34), `htmlApos` (`&#39;`) for the apostrophe (code 39),
`htmlAmp` for `&`, `htmlLt` for `<`, `htmlGt` for `>`, and the byte itself in
the `default` case. -/
def htmlEscapeByte (c : Char) : List Char :=
  if c = Char.ofNat 0 then [Char.ofNat 0xFFFD]
  else if c = Char.ofNat 34 then "&#34;".data
  else if c = Char.ofNat 39 then "&#39;".data
  else if c = '&' then "&amp;".data
  else if c = '<' then "&lt;".data
  else if c = '>' then "&gt;".data
  else [c]

/-- The standard library's `text/template.HTMLEscape`: the bytes up to a special
byte are written unchanged, then its replacement, and so on to the end. -/
def HTMLEscape : List Char → List Char
  | [] => []
  | c :: cs => htmlEscapeByte c ++ HTMLEscape cs

/-- The test `strings.ContainsAny(s, "'\"&<>\000")`. -/
def containsSpecial (s : String) : Bool :=
  s.data.any fun c => "'\"&<>\x00".data.contains c

/-- The standard library's `text/template.HTMLEscapeString`, which returns the
string itself when it has no special byte. -/
def HTMLEscapeString (s : String) : String :=
  if !containsSpecial s then s
  else String.mk (HTMLEscape s.data)

/-- The standard library's `html/template.HTMLEscaper` at one string argument
(`evalArgs` returns a single string argument as it is). -/
def HTMLEscaper (t : String) : String := HTMLEscapeString t

/-- The function `Text`: a node that renders the escaped string `t`. -/
def Text (t : String) : NodeFunc := fun _ => HTMLEscaper t

/-- The function `Raw`: a node that renders the unescaped string `t`. -/
def Raw (t : String) : NodeFunc := fun _ => t

/-- The renderings of the nodes of a list, concatenated in list order. -/
def renderAll : List Node → String
  | [] => ""
  | c :: cs => c.Render ++ renderAll cs

/-- The attribute children of a child list, in their original relative order. -/
def attrChildren (children : List Node) : List Node :=
  children.filter fun c => c.isAttr

/-- The non-attribute children of a child list, in their original relative order. -/
def contentChildren (children : List Node) : List Node :=
  children.filter fun c => !c.isAttr

/-- The five HTML-special characters: `&`, `<`, `>`, the double quote
(code 34) and the apostrophe (code 39). -/
def htmlSpecial : List Char := ['&', '<', '>', Char.ofNat 34, Char.ofNat 39]

/-- The entities `Text` writes for the five HTML-special characters. -/
def htmlEntities : List String := ["&amp;", "&lt;", "&gt;", "&#34;", "&#39;"]

/-- Every `&` of the character list is the first character of an occurrence of
one of the entities of `htmlEntities`. -/
def AmpersandsStartEntities (out : List Char) : Prop :=
  ∀ before after, out = before ++ '&' :: after →
    ∃ e ∈ htmlEntities, e.data <+: '&' :: after

/-- A term of factory calls: a node as a caller builds it with `El`, `Attr`,
`Text` and `Raw`, the children of an element being such terms themselves. -/
inductive Markup where
  | el (name : String) (children : List Markup)
  | attr (name : String) (value : List String)
  | text (t : String)
  | raw (t : String)

mutual
/-- The node a term of factory calls evaluates to: the arguments are evaluated
first, in order, and a panic of `Attr` aborts the whole construction. -/
def Markup.build : Markup → Except String Node
  | .el name children =>
    match Markup.buildAll children with
    | .ok cs => .ok (.ofNodeFunc (Gomponents.El name cs))
    | .error e => .error e
  | .attr name value => Gomponents.Attr name value
  | .text t => .ok (.ofNodeFunc (Gomponents.Text t))
  | .raw t => .ok (.ofNodeFunc (Gomponents.Raw t))
/-- The child list of an element, evaluated left to right. -/
def Markup.buildAll : List Markup → Except String (List Node)
  | [] => .ok []
  | c :: cs =>
    match c.build with
    | .error e => .error e
    | .ok n =>
      match Markup.buildAll cs with
      | .ok ns => .ok (n :: ns)
      | .error e => .error e
end

mutual
/-- Every call of `Attr` in the term has zero or one value. -/
def Markup.arityOk : Markup → Bool
  | .el _ children => Markup.arityOkAll children
  | .attr _ value => decide (value.length ≤ 1)
  | .text _ => true
  | .raw _ => true
/-- Every call of `Attr` in the terms of the list has zero or one value. -/
def Markup.arityOkAll : List Markup → Bool
  | [] => true
  | c :: cs => c.arityOk && Markup.arityOkAll cs
end

mutual
/-- The number of nodes of the tree a term describes. -/
def Markup.size : Markup → Nat
  | .el _ children => 1 + Markup.sizeAll children
  | .attr _ _ => 1
  | .text _ => 1
  | .raw _ => 1
/-- The number of nodes of the trees of a list. -/
def Markup.sizeAll : List Markup → Nat
  | [] => 0
  | c :: cs => c.size + Markup.sizeAll cs
end

/-- The term is a call of `Attr`. -/
def Markup.isAttr : Markup → Bool
  | .attr _ _ => true
  | _ => false

mutual
/-- The `Render` invocations of one call of `Render` on the node of a term, read
off the loop of `El`: the call itself, and for an element the calls its loop
makes on its children. -/
def Markup.calls : Markup → Nat
  | .el _ children => 1 + Markup.callsAll children
  | .attr _ _ => 1
  | .text _ => 1
  | .raw _ => 1
/-- The `Render` invocations of the loop of `El` over a child list: one call on
a child that is an `attr`, two calls on any other child. -/
def Markup.callsAll : List Markup → Nat
  | [] => 0
  | c :: cs => (if c.isAttr then c.calls else 2 * c.calls) + Markup.callsAll cs
end

/-- A chain of `depth` nested `div` elements around one text node:
`El("div", El("div", ... Text("x")))`. -/
def Markup.chain : Nat → Markup
  | 0 => .text "x"
  | depth + 1 => .el "div" [Markup.chain depth]

/-! ## The same code with a counter of `Render` invocations

The definitions of the namespace `Counted` are the code above once more, run in
a state: a counter that every invocation of a `Render` method increases by one.
A closure `func() string` becomes a function from the state before the call to
the string and the state after it, so that a caller's own `NodeFunc` may depend
on the state.
-/

namespace Counted

/-- The type `NodeFunc`, a closure run in the state of the counter. -/
abbrev NodeFunc := Nat → String × Nat

/-- The method `func (n NodeFunc) Render() string { return n() }`, counted as one
invocation. -/
def NodeFunc.Render (n : NodeFunc) (calls : Nat) : String × Nat := n (calls + 1)

/-- The method `func (a attr) Render() string`, counted as one invocation. -/
def attrRender (a : attr) (calls : Nat) : String × Nat := (a.Render, calls + 1)

/-- A value of the interface `Node`, tagged with its dynamic type. -/
inductive Node where
  | ofAttr (a : attr)
  | ofNodeFunc (f : NodeFunc)

/-- Dynamic dispatch of `Render()` on a `Node`. -/
def Node.Render : Node → Nat → String × Nat
  | .ofAttr a => attrRender a
  | .ofNodeFunc f => f.Render

/-- The type assertion `_, ok := c.(attr)`. -/
def Node.isAttr : Node → Bool
  | .ofAttr _ => true
  | .ofNodeFunc _ => false

/-- One iteration of the loop of `El`: `s := c.Render()` for every child, and
`c.Render()` once more in `childrenString.WriteString(c.Render())` for a child
that is not an `attr`. -/
def El.step (acc : (String × String) × Nat) (c : Node) : (String × String) × Nat :=
  let r := c.Render acc.2
  if c.isAttr then ((acc.1.1 ++ r.1, acc.1.2), r.2)
  else
    let r2 := c.Render r.2
    ((acc.1.1, acc.1.2 ++ r2.1), r2.2)

/-- The function `El`. -/
def El (name : String) (children : List Node) : NodeFunc := fun calls =>
  let b := "<" ++ name
  if children.length = 0 then
    (b ++ "/>", calls)
  else
    let acc := children.foldl El.step (("", ""), calls)
    let b := b ++ acc.1.1
    if acc.1.2.utf8ByteSize = 0 then
      (b ++ "/>", acc.2)
    else
      (b ++ ">" ++ acc.1.2 ++ "</" ++ name ++ ">", acc.2)

/-- The function `Attr`. -/
def Attr (name : String) (value : List String) : Except String Node :=
  match value with
  | [] => .ok (.ofAttr { name := name, value := none })
  | [v] => .ok (.ofAttr { name := name, value := some v })
  | _ :: _ :: _ => .error "attribute must be just name or name and value pair"

/-- The function `Text`. -/
def Text (t : String) : NodeFunc := fun calls => (HTMLEscaper t, calls)

/-- The function `Raw`. -/
def Raw (t : String) : NodeFunc := fun calls => (t, calls)

end Counted

mutual
/-- The counted node a term of factory calls evaluates to. -/
def Markup.buildCounted : Markup → Except String Counted.Node
  | .el name children =>
    match Markup.buildAllCounted children with
    | .ok cs => .ok (.ofNodeFunc (Counted.El name cs))
    | .error e => .error e
  | .attr name value => Counted.Attr name value
  | .text t => .ok (.ofNodeFunc (Counted.Text t))
  | .raw t => .ok (.ofNodeFunc (Counted.Raw t))
/-- The child list of an element as counted nodes, evaluated left to right. -/
def Markup.buildAllCounted : List Markup → Except String (List Counted.Node)
  | [] => .ok []
  | c :: cs =>
    match c.buildCounted with
    | .error e => .error e
    | .ok n =>
      match Markup.buildAllCounted cs with
      | .ok ns => .ok (n :: ns)
      | .error e => .error e
end

/-- The number of `Render` invocations that one call of `Render` on the root of
a term performs, the call on the root included; `none` when construction
panics. -/
def Markup.renderCalls (m : Markup) : Option Nat :=
  match m.buildCounted with
  | .ok node => some (node.Render 0).2
  | .error _ => none

/-! ## The same code on a store of string variables

The definitions of the namespace `Mem` are the code once more, run on the
variables of type `string` that the program can write after a node is built:
the elements of the `[]string` slices passed to `Attr`, to which `Attr` keeps a
pointer (`&value[0]`), and the variables a caller's closure captures.  A closure
`func() string` becomes a function from the store before the call to the string
and the store after it.  The child list of `El` stays a value.
-/

namespace Mem

/-- The `string` variables of the program, by address. -/
abbrev Store := Nat → String

/-- The assignment `*p = v`. -/
def Store.set (st : Store) (p : Nat) (v : String) : Store :=
  fun q => if q = p then v else st q

/-- A `[]string`: the address of its first element and its length. -/
structure Slice where
  ptr : Nat
  len : Nat

/-- The elements of a slice, read from the store. -/
def Slice.read (value : Slice) (st : Store) : List String :=
  (List.range value.len).map fun i => st (value.ptr + i)

/-- The type `NodeFunc`, a closure run on the store. -/
abbrev NodeFunc := Store → String × Store

/-- The method `func (n NodeFunc) Render() string { return n() }`. -/
def NodeFunc.Render (n : NodeFunc) (st : Store) : String × Store := n st

/-- The struct `attr`: a name and a `*string` value, `none` being the nil pointer
and `some p` the address of a `string` variable. -/
structure attr where
  name : String
  value : Option Nat

/-- The method `func (a attr) Render() string`, which reads `*a.value` at the
time of the call. -/
def attr.Render (a : attr) (st : Store) : String × Store :=
  match a.value with
  | none => (" " ++ a.name, st)
  | some p => (" " ++ a.name ++ "=\"" ++ st p ++ "\"", st)

/-- A value of the interface `Node`, tagged with its dynamic type. -/
inductive Node where
  | ofAttr (a : attr)
  | ofNodeFunc (f : NodeFunc)

/-- Dynamic dispatch of `Render()` on a `Node`. -/
def Node.Render : Node → Store → String × Store
  | .ofAttr a => a.Render
  | .ofNodeFunc f => f.Render

/-- The type assertion `_, ok := c.(attr)`. -/
def Node.isAttr : Node → Bool
  | .ofAttr _ => true
  | .ofNodeFunc _ => false

/-- One iteration of the loop of `El`: `s := c.Render()` for every child, and
`c.Render()` once more in `childrenString.WriteString(c.Render())` for a child
that is not an `attr`. -/
def El.step (acc : (String × String) × Store) (c : Node) : (String × String) × Store :=
  let r := c.Render acc.2
  if c.isAttr then ((acc.1.1 ++ r.1, acc.1.2), r.2)
  else
    let r2 := c.Render r.2
    ((acc.1.1, acc.1.2 ++ r2.1), r2.2)

/-- The function `El`. -/
def El (name : String) (children : List Node) : NodeFunc := fun st =>
  let b := "<" ++ name
  if children.length = 0 then
    (b ++ "/>", st)
  else
    let acc := children.foldl El.step (("", ""), st)
    let b := b ++ acc.1.1
    if acc.1.2.utf8ByteSize = 0 then
      (b ++ "/>", acc.2)
    else
      (b ++ ">" ++ acc.1.2 ++ "</" ++ name ++ ">", acc.2)

/-- The function `Attr`: with one value it keeps `&value[0]`, the address of
the first element of the slice it was passed. -/
def Attr (name : String) (value : Slice) : Except String Node :=
  match value.len with
  | 0 => .ok (.ofAttr { name := name, value := none })
  | 1 => .ok (.ofAttr { name := name, value := some value.ptr })
  | _ + 2 => .error "attribute must be just name or name and value pair"

/-- The function `Text`. -/
def Text (t : String) : NodeFunc := fun st => (HTMLEscaper t, st)

/-- The function `Raw`. -/
def Raw (t : String) : NodeFunc := fun st => (t, st)

/-- A term of factory calls in which the values of `Attr` are a slice of the
store, as in the call `Attr(name, vs...)`. -/
inductive Markup where
  | el (name : String) (children : List Markup)
  | attr (name : String) (value : Slice)
  | text (t : String)
  | raw (t : String)

end Mem

mutual
/-- The node on the store that a term of factory calls evaluates to. -/
def Mem.Markup.build : Mem.Markup → Except String Mem.Node
  | .el name children =>
    match Mem.Markup.buildAll children with
    | .ok cs => .ok (.ofNodeFunc (Mem.El name cs))
    | .error e => .error e
  | .attr name value => Mem.Attr name value
  | .text t => .ok (.ofNodeFunc (Mem.Text t))
  | .raw t => .ok (.ofNodeFunc (Mem.Raw t))
/-- The child list of an element as nodes on the store, evaluated left to right. -/
def Mem.Markup.buildAll : List Mem.Markup → Except String (List Mem.Node)
  | [] => .ok []
  | c :: cs =>
    match c.build with
    | .error e => .error e
    | .ok n =>
      match Mem.Markup.buildAll cs with
      | .ok ns => .ok (n :: ns)
      | .error e => .error e
end

mutual
/-- The arguments of a term as values: every slice replaced by the strings it
holds in the store. -/
def Mem.Markup.deref : Mem.Markup → Mem.Store → Gomponents.Markup
  | .el name children, st => .el name (Mem.Markup.derefAll children st)
  | .attr name value, st => .attr name (value.read st)
  | .text t, _ => .text t
  | .raw t, _ => .raw t
/-- The arguments of the terms of a list as values. -/
def Mem.Markup.derefAll : List Mem.Markup → Mem.Store → List Gomponents.Markup
  | [], _ => []
  | c :: cs, st => c.deref st :: Mem.Markup.derefAll cs st
end

mutual
/-- The addresses that the nodes of a term keep a pointer to. -/
def Mem.Markup.pointers : Mem.Markup → List Nat
  | .el _ children => Mem.Markup.pointersAll children
  | .attr _ value => if value.len = 1 then [value.ptr] else []
  | .text _ => []
  | .raw _ => []
/-- The addresses that the nodes of the terms of a list keep a pointer to. -/
def Mem.Markup.pointersAll : List Mem.Markup → List Nat
  | [] => []
  | c :: cs => c.pointers ++ Mem.Markup.pointersAll cs
end

/-- A caller's closure over a captured variable at address 0:
`func() string { n += "I"; return n }`. -/
def Mem.appender : Mem.NodeFunc := fun st =>
  (st 0 ++ "I", Mem.Store.set st 0 (st 0 ++ "I"))

/-! ## Lemmas on the loop of `El` -/

theorem utf8ByteSize_eq_zero_iff (s : String) : s.utf8ByteSize = 0 ↔ s = "" := by
  constructor
  · intro h
    cases s with
    | mk l =>
      cases l with
      | nil => rfl
      | cons c cs =>
        have hc := Char.utf8Size_pos c
        simp only [String.utf8ByteSize, String.utf8ByteSize.go] at h
        omega
  · intro h
    subst h
    rfl

theorem foldl_step_eq (children : List Node) (a c : String) :
    children.foldl El.step (a, c)
      = (a ++ renderAll (attrChildren children), c ++ renderAll (contentChildren children)) := by
  induction children generalizing a c with
  | nil => simp [renderAll, attrChildren, contentChildren]
  | cons x xs ih =>
    cases x with
    | ofAttr t =>
      simp [List.foldl_cons, El.step, Node.isAttr, ih, renderAll, attrChildren,
        contentChildren, String.append_assoc]
    | ofNodeFunc f =>
      simp [List.foldl_cons, El.step, Node.isAttr, ih, renderAll, attrChildren,
        contentChildren, String.append_assoc]

theorem El_Render_eq (name : String) (children : List Node) :
    (El name children).Render =
      if children.length = 0 then "<" ++ name ++ "/>"
      else if renderAll (contentChildren children) = "" then
        "<" ++ name ++ renderAll (attrChildren children) ++ "/>"
      else
        "<" ++ name ++ renderAll (attrChildren children) ++ ">"
          ++ renderAll (contentChildren children) ++ "</" ++ name ++ ">" := by
  simp only [NodeFunc.Render, El, foldl_step_eq, String.empty_append,
    utf8ByteSize_eq_zero_iff]

theorem renderAll_contentChildren_of_all_attr (children : List Node)
    (h : ∀ c ∈ children, c.isAttr = true) : contentChildren children = [] := by
  simp only [contentChildren, List.filter_eq_nil_iff]
  intro c hc
  simp [h c hc]

theorem attrChildren_of_all_attr (children : List Node)
    (h : ∀ c ∈ children, c.isAttr = true) : attrChildren children = children := by
  simp only [attrChildren, List.filter_eq_self]
  exact h

theorem length_attrChildren_add (children : List Node) :
    (attrChildren children).length + (contentChildren children).length = children.length := by
  induction children with
  | nil => rfl
  | cons x xs ih =>
    cases x with
    | ofAttr t =>
      simp only [attrChildren, contentChildren, Node.isAttr, List.filter_cons, if_true,
        Bool.not_true, List.length_cons] at ih ⊢
      simp only [Bool.false_eq_true, if_false]
      omega
    | ofNodeFunc f =>
      simp only [attrChildren, contentChildren, Node.isAttr, List.filter_cons,
        Bool.not_false, List.length_cons, if_true] at ih ⊢
      simp only [Bool.false_eq_true, if_false]
      omega

/-! ## Lemmas on the escaper -/

theorem special_bytes_data :
    "'\"&<>\x00".data
      = [Char.ofNat 39, Char.ofNat 34, '&', '<', '>', Char.ofNat 0] := by decide

theorem htmlEscapeByte_of_plain (c : Char)
    (h : "'\"&<>\x00".data.contains c = false) : htmlEscapeByte c = [c] := by
  rw [special_bytes_data] at h
  simp only [List.contains_eq_any_beq, List.any_cons, List.any_nil, Bool.or_false,
    Bool.or_eq_false_iff, beq_eq_false_iff_ne, ne_eq] at h
  obtain ⟨h39, h34, hamp, hlt, hgt, h0⟩ := h
  simp only [htmlEscapeByte]
  rw [if_neg h0, if_neg h34, if_neg h39, if_neg hamp, if_neg hlt, if_neg hgt]

theorem HTMLEscape_append (u v : List Char) :
    HTMLEscape (u ++ v) = HTMLEscape u ++ HTMLEscape v := by
  induction u with
  | nil => rfl
  | cons c cs ih => simp [HTMLEscape, ih]

theorem HTMLEscape_of_plain (l : List Char)
    (h : ∀ c ∈ l, "'\"&<>\x00".data.contains c = false) : HTMLEscape l = l := by
  induction l with
  | nil => rfl
  | cons c cs ih =>
    have hc := htmlEscapeByte_of_plain c (h c (List.mem_cons_self _ _))
    have hcs := ih fun d hd => h d (List.mem_cons_of_mem _ hd)
    simp [HTMLEscape, hc, hcs]

theorem HTMLEscapeString_eq (s : String) :
    HTMLEscapeString s = String.mk (HTMLEscape s.data) := by
  unfold HTMLEscapeString
  split
  · rename_i h
    have hplain : ∀ c ∈ s.data, "'\"&<>\x00".data.contains c = false := by
      simpa [containsSpecial] using h
    rw [HTMLEscape_of_plain s.data hplain]
  · rfl

theorem Text_Render_append (u v : String) :
    (Text (u ++ v)).Render = (Text u).Render ++ (Text v).Render := by
  simp only [NodeFunc.Render, Text, HTMLEscaper, HTMLEscapeString_eq]
  apply String.ext
  simp [HTMLEscape_append]

theorem plain_iff (c : Char) :
    "'\"&<>\x00".data.contains c = false ↔ c ∉ htmlSpecial ∧ c ≠ Char.ofNat 0 := by
  rw [special_bytes_data]
  simp only [List.contains_eq_any_beq, List.any_cons, List.any_nil, Bool.or_false,
    Bool.or_eq_false_iff, beq_eq_false_iff_ne, ne_eq, htmlSpecial, List.mem_cons,
    List.mem_singleton, not_or, List.not_mem_nil, or_false]
  constructor
  · rintro ⟨h39, h34, hamp, hlt, hgt, h0⟩
    exact ⟨⟨hamp, hlt, hgt, h34, h39⟩, h0⟩
  · rintro ⟨⟨hamp, hlt, hgt, h34, h39⟩, h0⟩
    exact ⟨h39, h34, hamp, hlt, hgt, h0⟩

theorem length_le_length_HTMLEscape (l : List Char) : l.length ≤ (HTMLEscape l).length := by
  induction l with
  | nil => exact Nat.le_refl _
  | cons c cs ih =>
    have hc : 1 ≤ (htmlEscapeByte c).length := by
      unfold htmlEscapeByte
      repeat' split
      all_goals simp
    simp only [HTMLEscape, List.length_append, List.length_cons]
    omega

theorem plain_of_HTMLEscape_eq_self (l : List Char) (h : HTMLEscape l = l) :
    ∀ c ∈ l, "'\"&<>\x00".data.contains c = false := by
  induction l with
  | nil => intro c hc; cases hc
  | cons d ds ih =>
    have hlen := length_le_length_HTMLEscape ds
    cases hd : "'\"&<>\x00".data.contains d with
    | false =>
      rw [HTMLEscape, htmlEscapeByte_of_plain d hd] at h
      have htail : HTMLEscape ds = ds := by simpa using h
      intro c hc
      rcases List.mem_cons.mp hc with rfl | hmem
      · exact hd
      · exact ih htail c hmem
    | true =>
      exfalso
      rw [special_bytes_data] at hd
      simp only [List.contains_eq_any_beq, List.any_cons, List.any_nil, Bool.or_false,
        Bool.or_eq_true, beq_iff_eq] at hd
      have hl := congrArg List.length h
      have hh := congrArg List.head? h
      rcases hd with rfl | rfl | rfl | rfl | rfl | rfl
      · simp [HTMLEscape, htmlEscapeByte] at hh
      · simp [HTMLEscape, htmlEscapeByte] at hh
      · simp [HTMLEscape, htmlEscapeByte] at hl
        omega
      · simp [HTMLEscape, htmlEscapeByte] at hh
      · simp [HTMLEscape, htmlEscapeByte] at hh
      · simp [HTMLEscape, htmlEscapeByte] at hh

/-! ## Elements -/

/-- C1 (as stated, refuted): the child list of `El("a", Attr("href","/x"), Text(""))`
has an attribute node and a non-attribute node, yet the element renders
self-closed as `<a href="/x"/>` and not as `<a href="/x"></a>`. -/
theorem El_mixed_counterexample :
    Attr "href" ["/x"] = .ok (.ofAttr ⟨"href", some "/x"⟩) ∧
    (∃ c ∈ [Node.ofAttr ⟨"href", some "/x"⟩, .ofNodeFunc (Text "")], c.isAttr = true) ∧
    (∃ c ∈ [Node.ofAttr ⟨"href", some "/x"⟩, .ofNodeFunc (Text "")], c.isAttr = false) ∧
    (El "a" [.ofAttr ⟨"href", some "/x"⟩, .ofNodeFunc (Text "")]).Render = "<a href=\"/x\"/>" ∧
    (El "a" [.ofAttr ⟨"href", some "/x"⟩, .ofNodeFunc (Text "")]).Render
      ≠ "<" ++ "a"
          ++ renderAll (attrChildren [.ofAttr ⟨"href", some "/x"⟩, .ofNodeFunc (Text "")])
          ++ ">"
          ++ renderAll (contentChildren [.ofAttr ⟨"href", some "/x"⟩, .ofNodeFunc (Text "")])
          ++ "</" ++ "a" ++ ">" :=
  ⟨rfl, ⟨_, List.mem_cons_self _ _, rfl⟩,
    ⟨_, List.mem_cons_of_mem _ (List.mem_cons_self _ _), rfl⟩, by decide, by decide⟩

/-- C1 (amended): for every tag name and every child list with at least one
attribute node and at least one non-attribute node, in any interleaving, whose
non-attribute children do not all render to the empty string, the element
renders as `<name`, the attribute renderings in their original order, `>`, the
non-attribute renderings in their original order, and `</name>`. -/
theorem El_mixed_render (name : String) (children : List Node)
    (hattr : ∃ c ∈ children, c.isAttr = true)
    (hcontent : ∃ c ∈ children, c.isAttr = false)
    (hne : renderAll (contentChildren children) ≠ "") :
    (El name children).Render
      = "<" ++ name ++ renderAll (attrChildren children) ++ ">"
          ++ renderAll (contentChildren children) ++ "</" ++ name ++ ">" := by
  obtain ⟨c, hc, _⟩ := hattr
  have hlen : children.length ≠ 0 := by
    intro h0
    rw [List.length_eq_zero] at h0
    subst h0
    cases hc
  rw [El_Render_eq, if_neg hlen, if_neg hne]

/-- Witness of C1: `El("a", Attr("href","/x"), Text("go"))` renders
`<a href="/x">go</a>`, and the list of two `li` elements renders
`<ul><li>one</li><li>two</li></ul>`. -/
theorem El_mixed_render_witness :
    Attr "href" ["/x"] = .ok (.ofAttr ⟨"href", some "/x"⟩) ∧
    (El "a" [.ofAttr ⟨"href", some "/x"⟩, .ofNodeFunc (Text "go")]).Render
      = "<a href=\"/x\">go</a>" ∧
    (El "ul" [.ofNodeFunc (El "li" [.ofNodeFunc (Text "one")]),
        .ofNodeFunc (El "li" [.ofNodeFunc (Text "two")])]).Render
      = "<ul><li>one</li><li>two</li></ul>" :=
  ⟨rfl,
    (El_mixed_render "a" [.ofAttr ⟨"href", some "/x"⟩, .ofNodeFunc (Text "go")]
      ⟨_, List.mem_cons_self _ _, rfl⟩
      ⟨_, List.mem_cons_of_mem _ (List.mem_cons_self _ _), rfl⟩
      (by decide)).trans (by decide),
    by decide⟩

/-- C2: for every tag name and every non-empty child list of attribute nodes
only, the element renders as `<name`, each attribute rendering in list order,
and `/>`. -/
theorem El_attrs_only_render (name : String) (attrs : List Node)
    (hne : attrs ≠ [])
    (hall : ∀ c ∈ attrs, c.isAttr = true) :
    (El name attrs).Render = "<" ++ name ++ renderAll attrs ++ "/>" := by
  have hlen : attrs.length ≠ 0 := by
    intro h0
    exact hne (List.length_eq_zero.mp h0)
  rw [El_Render_eq, if_neg hlen, renderAll_contentChildren_of_all_attr attrs hall,
    attrChildren_of_all_attr attrs hall]
  simp [renderAll]

/-- Witness of C2: `El("input", Attr("type","text"), Attr("required"))` renders
`<input type="text" required/>`. -/
theorem El_attrs_only_render_witness :
    Attr "type" ["text"] = .ok (.ofAttr ⟨"type", some "text"⟩) ∧
    Attr "required" [] = .ok (.ofAttr ⟨"required", none⟩) ∧
    (El "input" [.ofAttr ⟨"type", some "text"⟩, .ofAttr ⟨"required", none⟩]).Render
      = "<input type=\"text\" required/>" :=
  ⟨rfl, rfl,
    (El_attrs_only_render "input" [.ofAttr ⟨"type", some "text"⟩, .ofAttr ⟨"required", none⟩]
      (by simp)
      (by intro c hc; simp at hc; rcases hc with rfl | rfl <;> rfl)).trans (by decide)⟩

/-- C3: for every tag name, the empty string included, `El(name)` with no
children renders exactly `<name/>`. -/
theorem El_no_children_render (name : String) :
    (El name []).Render = "<" ++ name ++ "/>" ∧ (El "" []).Render = "</>" :=
  ⟨rfl, rfl⟩

/-- C10: two child lists with the same attribute nodes in the same order and
the same non-attribute nodes in the same order render the same element,
however the two kinds are interleaved; and the region between the opening and
the closing tag is made of the renderings of the non-attribute children only. -/
theorem El_render_interleaving (name : String) (xs ys : List Node)
    (hattr : attrChildren xs = attrChildren ys)
    (hcontent : contentChildren xs = contentChildren ys) :
    (El name xs).Render = (El name ys).Render ∧
    (renderAll (contentChildren xs) ≠ "" →
      (El name xs).Render
        = "<" ++ name ++ renderAll (attrChildren xs) ++ ">"
            ++ renderAll (contentChildren xs) ++ "</" ++ name ++ ">") ∧
    (renderAll (contentChildren xs) = "" →
      (El name xs).Render = "<" ++ name ++ renderAll (attrChildren xs) ++ "/>") := by
  have hx := length_attrChildren_add xs
  have hy := length_attrChildren_add ys
  have hlen : xs.length = ys.length := by rw [← hx, ← hy, hattr, hcontent]
  refine ⟨?_, ?_, ?_⟩
  · rw [El_Render_eq, El_Render_eq, hattr, hcontent, hlen]
  · intro hne
    have hpos : xs.length ≠ 0 := by
      intro h0
      rw [List.length_eq_zero] at h0
      subst h0
      exact hne rfl
    rw [El_Render_eq, if_neg hpos, if_neg hne]
  · intro he
    rw [El_Render_eq, if_pos he]
    split
    · rename_i h0
      rw [List.length_eq_zero] at h0
      subst h0
      simp [attrChildren, renderAll]
    · rfl

/-- Witness of C10: `El("p", Attr("id","a"), Text("x"), Attr("hidden"), Raw("<i>"))`
and `El("p", Text("x"), Raw("<i>"), Attr("id","a"), Attr("hidden"))` both render
`<p id="a" hidden>x<i></p>`. -/
theorem El_render_interleaving_witness :
    (El "p" [.ofAttr ⟨"id", some "a"⟩, .ofNodeFunc (Text "x"), .ofAttr ⟨"hidden", none⟩,
        .ofNodeFunc (Raw "<i>")]).Render
      = (El "p" [.ofNodeFunc (Text "x"), .ofNodeFunc (Raw "<i>"), .ofAttr ⟨"id", some "a"⟩,
        .ofAttr ⟨"hidden", none⟩]).Render ∧
    (El "p" [.ofNodeFunc (Text "x"), .ofNodeFunc (Raw "<i>"), .ofAttr ⟨"id", some "a"⟩,
        .ofAttr ⟨"hidden", none⟩]).Render = "<p id=\"a\" hidden>x<i></p>" :=
  ⟨(El_render_interleaving "p"
      [.ofAttr ⟨"id", some "a"⟩, .ofNodeFunc (Text "x"), .ofAttr ⟨"hidden", none⟩,
        .ofNodeFunc (Raw "<i>")]
      [.ofNodeFunc (Text "x"), .ofNodeFunc (Raw "<i>"), .ofAttr ⟨"id", some "a"⟩,
        .ofAttr ⟨"hidden", none⟩] rfl rfl).1,
    by decide⟩

/-! ## Attributes -/

/-- C4: for every name and every value, `Attr(name, v)` renders as a space, the
name, `=`, and the value in double quotes, the value verbatim. -/
theorem Attr_value_render (name v : String) :
    (∃ node, Attr name [v] = .ok node ∧
      node.Render = " " ++ name ++ "=\"" ++ v ++ "\"") ∧
    (∃ node, Attr "class" ["header"] = .ok node ∧ node.Render = " class=\"header\"") ∧
    (∃ node, Attr "title" ["a\"<b>"] = .ok node ∧ node.Render = " title=\"a\"<b>\"") :=
  ⟨⟨_, rfl, rfl⟩, ⟨_, rfl, by decide⟩, ⟨_, rfl, by decide⟩⟩

/-- C5: for every name, `Attr(name)` with no value renders exactly a space and
the name, which is not the rendering of `Attr(name, "")`. -/
theorem Attr_name_only_render (name : String) :
    (∃ node, Attr name [] = .ok node ∧ node.Render = " " ++ name) ∧
    (∀ a b, Attr name [] = .ok a → Attr name [""] = .ok b → a.Render ≠ b.Render) ∧
    (∃ node, Attr "required" [] = .ok node ∧ node.Render = " required") := by
  refine ⟨⟨_, rfl, rfl⟩, ?_, ⟨_, rfl, by decide⟩⟩
  intro a b ha hb
  simp only [Attr, Except.ok.injEq] at ha hb
  subst ha
  subst hb
  intro h
  have hlen := congrArg String.length h
  simp only [Node.Render, attr.Render, String.length_append] at hlen
  have h1 : "=\"".length = 2 := by decide
  have h2 : "\"".length = 1 := by decide
  have h3 : "".length = 0 := by decide
  omega

/-- C6: `Attr(name, values...)` panics if and only if more than one value is
supplied; with no value or one value it returns an attribute node. -/
theorem Attr_panics_iff (name : String) (values : List String) :
    ((∃ msg, Attr name values = .error msg) ↔ 2 ≤ values.length) ∧
    ((∃ a, Attr name values = .ok (.ofAttr a)) ↔ values.length ≤ 1) := by
  match values with
  | [] => simp [Attr]
  | [v] => simp [Attr]
  | _ :: _ :: _ => simp [Attr]

/-! ## Text and raw nodes -/

/-- C7: `Text` replaces each occurrence of `&`, `<`, `>`, the double quote and
the apostrophe by `&amp;`, `&lt;`, `&gt;`, `&#34;` and `&#39;`, whatever
strings stand before and after it; `Text("<b>")` renders `&lt;b&gt;`. -/
theorem Text_escapes_special (u v : String) :
    (Text (u ++ "&" ++ v)).Render = (Text u).Render ++ "&amp;" ++ (Text v).Render ∧
    (Text (u ++ "<" ++ v)).Render = (Text u).Render ++ "&lt;" ++ (Text v).Render ∧
    (Text (u ++ ">" ++ v)).Render = (Text u).Render ++ "&gt;" ++ (Text v).Render ∧
    (Text (u ++ "\"" ++ v)).Render = (Text u).Render ++ "&#34;" ++ (Text v).Render ∧
    (Text (u ++ "'" ++ v)).Render = (Text u).Render ++ "&#39;" ++ (Text v).Render ∧
    (Text "<b>").Render = "&lt;b&gt;" := by
  have hamp : (Text "&").Render = "&amp;" := by decide
  have hlt : (Text "<").Render = "&lt;" := by decide
  have hgt : (Text ">").Render = "&gt;" := by decide
  have hquot : (Text "\"").Render = "&#34;" := by decide
  have hapos : (Text "'").Render = "&#39;" := by decide
  refine ⟨?_, ?_, ?_, ?_, ?_, by decide⟩
  · rw [Text_Render_append, Text_Render_append, hamp]
  · rw [Text_Render_append, Text_Render_append, hlt]
  · rw [Text_Render_append, Text_Render_append, hgt]
  · rw [Text_Render_append, Text_Render_append, hquot]
  · rw [Text_Render_append, Text_Render_append, hapos]

/-- C8 (as stated, refuted): the string made of the one NUL character contains
none of the five HTML-special characters, yet `Text` renders it as the
replacement character U+FFFD, not as itself. -/
theorem Text_plain_counterexample :
    (∀ c ∈ "\x00".data, c ∉ htmlSpecial) ∧
    (Text "\x00").Render = String.mk [Char.ofNat 0xFFFD] ∧
    (Text "\x00").Render ≠ "\x00" :=
  ⟨by decide, by decide, by decide⟩

/-- C8 (amended): the characters `Text` changes are exactly the five
HTML-special characters and NUL: `Text(s)` renders `s` itself if and only if
`s` contains none of `&`, `<`, `>`, the double quote, the apostrophe, and no
NUL character; control characters other than NUL and non-ASCII characters are
passed through. -/
theorem Text_render_eq_self_iff (s : String) :
    (Text s).Render = s ↔ ∀ c ∈ s.data, c ∉ htmlSpecial ∧ c ≠ Char.ofNat 0 := by
  simp only [NodeFunc.Render, Text, HTMLEscaper, HTMLEscapeString_eq, ← plain_iff]
  constructor
  · intro h
    exact plain_of_HTMLEscape_eq_self s.data (congrArg String.data h)
  · intro h
    exact String.ext (HTMLEscape_of_plain s.data h)

/-- C9: for every string, `Raw(s)` renders the string itself, markup and
special characters included. -/
theorem Raw_render (s : String) :
    (Raw s).Render = s ∧ (Raw "<b>").Render = "<b>" ∧
    (Raw "</p>&\"'<").Render = "</p>&\"'<" :=
  ⟨rfl, rfl, rfl⟩

/-! ## Exact output of `El` -/

/-- C13: for a non-empty child list, with `A` the renderings of the attribute
children and `C` the renderings of the non-attribute children, each concatenated
in list order, `El` renders `<name` + `A` + `/>` when `C` is the empty string and
`<name` + `A` + `>` + `C` + `</name>` otherwise. -/
theorem El_render_exact (name : String) (children : List Node) (hne : children ≠ []) :
    (El name children).Render =
      if renderAll (contentChildren children) = "" then
        "<" ++ name ++ renderAll (attrChildren children) ++ "/>"
      else
        "<" ++ name ++ renderAll (attrChildren children) ++ ">"
          ++ renderAll (contentChildren children) ++ "</" ++ name ++ ">" := by
  have hlen : children.length ≠ 0 := fun h0 => hne (List.length_eq_zero.mp h0)
  rw [El_Render_eq, if_neg hlen]

/-- Witness of C13: `El("div", Text(""))`, whose only child is a non-attribute
node that renders to the empty string, renders `<div/>`. -/
theorem El_render_exact_witness :
    (El "div" [.ofNodeFunc (Text "")]).Render = "<div/>" ∧
    (El "div" [.ofNodeFunc (Text "")]).Render ≠ "<div></div>" :=
  ⟨(El_render_exact "div" [.ofNodeFunc (Text "")] (by simp)).trans (by decide), by decide⟩

/-! ## The output of `Text` -/

theorem htmlEscapeByte_no_markup (c d : Char) (hd : d ∈ htmlEscapeByte c) :
    d ≠ '<' ∧ d ≠ '>' ∧ d ≠ Char.ofNat 34 ∧ d ≠ Char.ofNat 39 := by
  unfold htmlEscapeByte at hd
  split at hd
  · simp only [List.mem_singleton] at hd
    subst hd
    decide
  split at hd
  · simp only [List.mem_cons, List.mem_singleton, List.not_mem_nil, or_false] at hd
    rcases hd with rfl | rfl | rfl | rfl | rfl <;> decide
  split at hd
  · simp only [List.mem_cons, List.mem_singleton, List.not_mem_nil, or_false] at hd
    rcases hd with rfl | rfl | rfl | rfl | rfl <;> decide
  split at hd
  · simp only [List.mem_cons, List.mem_singleton, List.not_mem_nil, or_false] at hd
    rcases hd with rfl | rfl | rfl | rfl | rfl <;> decide
  split at hd
  · simp only [List.mem_cons, List.mem_singleton, List.not_mem_nil, or_false] at hd
    rcases hd with rfl | rfl | rfl | rfl <;> decide
  split at hd
  · simp only [List.mem_cons, List.mem_singleton, List.not_mem_nil, or_false] at hd
    rcases hd with rfl | rfl | rfl | rfl <;> decide
  · simp only [List.mem_singleton] at hd
    subst hd
    rename_i h0 h34 h39 hamp hlt hgt
    exact ⟨hlt, hgt, h34, h39⟩

theorem HTMLEscape_no_markup (l : List Char) (d : Char) (hd : d ∈ HTMLEscape l) :
    d ≠ '<' ∧ d ≠ '>' ∧ d ≠ Char.ofNat 34 ∧ d ≠ Char.ofNat 39 := by
  induction l with
  | nil => cases hd
  | cons c cs ih =>
    rw [HTMLEscape, List.mem_append] at hd
    rcases hd with h | h
    · exact htmlEscapeByte_no_markup c d h
    · exact ih h

theorem ampersands_nil : AmpersandsStartEntities [] := by
  intro before after h
  cases before <;> cases h

theorem ampersands_cons_of_ne (c : Char) (out : List Char) (hc : c ≠ '&')
    (h : AmpersandsStartEntities out) : AmpersandsStartEntities (c :: out) := by
  intro before after heq
  cases before with
  | nil =>
    simp only [List.nil_append, List.cons.injEq] at heq
    exact absurd heq.1 hc
  | cons b bs =>
    simp only [List.cons_append, List.cons.injEq] at heq
    exact h bs after heq.2

theorem ampersands_cons_amp (out : List Char) (e : String) (he : e ∈ htmlEntities)
    (hpre : e.data <+: '&' :: out)
    (h : AmpersandsStartEntities out) : AmpersandsStartEntities ('&' :: out) := by
  intro before after heq
  cases before with
  | nil =>
    simp only [List.nil_append, List.cons.injEq, true_and] at heq
    subst heq
    exact ⟨e, he, hpre⟩
  | cons b bs =>
    simp only [List.cons_append, List.cons.injEq] at heq
    exact h bs after heq.2

theorem ampersands_htmlEscapeByte_append (c : Char) (out : List Char)
    (h : AmpersandsStartEntities out) :
    AmpersandsStartEntities (htmlEscapeByte c ++ out) := by
  unfold htmlEscapeByte
  split
  · exact ampersands_cons_of_ne _ _ (by decide) h
  split
  · exact ampersands_cons_amp _ "&#34;" (by simp [htmlEntities]) ⟨out, rfl⟩
      (ampersands_cons_of_ne _ _ (by decide) (ampersands_cons_of_ne _ _ (by decide)
        (ampersands_cons_of_ne _ _ (by decide) (ampersands_cons_of_ne _ _ (by decide) h))))
  split
  · exact ampersands_cons_amp _ "&#39;" (by simp [htmlEntities]) ⟨out, rfl⟩
      (ampersands_cons_of_ne _ _ (by decide) (ampersands_cons_of_ne _ _ (by decide)
        (ampersands_cons_of_ne _ _ (by decide) (ampersands_cons_of_ne _ _ (by decide) h))))
  split
  · exact ampersands_cons_amp _ "&amp;" (by simp [htmlEntities]) ⟨out, rfl⟩
      (ampersands_cons_of_ne _ _ (by decide) (ampersands_cons_of_ne _ _ (by decide)
        (ampersands_cons_of_ne _ _ (by decide) (ampersands_cons_of_ne _ _ (by decide) h))))
  split
  · exact ampersands_cons_amp _ "&lt;" (by simp [htmlEntities]) ⟨out, rfl⟩
      (ampersands_cons_of_ne _ _ (by decide) (ampersands_cons_of_ne _ _ (by decide)
        (ampersands_cons_of_ne _ _ (by decide) h)))
  split
  · exact ampersands_cons_amp _ "&gt;" (by simp [htmlEntities]) ⟨out, rfl⟩
      (ampersands_cons_of_ne _ _ (by decide) (ampersands_cons_of_ne _ _ (by decide)
        (ampersands_cons_of_ne _ _ (by decide) h)))
  · rename_i h0 h34 h39 hamp hlt hgt
    exact ampersands_cons_of_ne _ _ hamp h

theorem ampersands_HTMLEscape (l : List Char) : AmpersandsStartEntities (HTMLEscape l) := by
  induction l with
  | nil => exact ampersands_nil
  | cons c cs ih => exact ampersands_htmlEscapeByte_append c (HTMLEscape cs) ih

/-- C16: for every string `s`, the rendering of `Text(s)` contains none of the
characters `<`, `>`, double quote and apostrophe, and every `&` in it is the
first character of one of the entities `&amp;`, `&lt;`, `&gt;`, `&#34;`, `&#39;`. -/
theorem Text_no_live_markup (s : String) :
    (∀ c ∈ (Text s).Render.data,
      c ≠ '<' ∧ c ≠ '>' ∧ c ≠ Char.ofNat 34 ∧ c ≠ Char.ofNat 39) ∧
    (∀ before after, (Text s).Render.data = before ++ '&' :: after →
      ∃ e ∈ htmlEntities, e.data <+: '&' :: after) := by
  have hr : (Text s).Render = String.mk (HTMLEscape s.data) := HTMLEscapeString_eq s
  rw [hr]
  exact ⟨fun c hc => HTMLEscape_no_markup s.data c hc, ampersands_HTMLEscape s.data⟩

/-! ## Terms of factory calls -/

mutual
theorem build_ok_of_arityOk (m : Markup) (h : m.arityOk = true) :
    ∃ node, m.build = .ok node := by
  match m with
  | .el name children =>
    rw [Markup.arityOk] at h
    obtain ⟨ns, hns⟩ := buildAll_ok_of_arityOk children h
    exact ⟨_, by rw [Markup.build, hns]⟩
  | .attr name value =>
    rw [Markup.arityOk, decide_eq_true_eq] at h
    match value, h with
    | [], _ => exact ⟨_, rfl⟩
    | [v], _ => exact ⟨_, rfl⟩
  | .text t => exact ⟨_, rfl⟩
  | .raw t => exact ⟨_, rfl⟩
theorem buildAll_ok_of_arityOk (ms : List Markup) (h : Markup.arityOkAll ms = true) :
    ∃ ns, Markup.buildAll ms = .ok ns := by
  match ms with
  | [] => exact ⟨_, rfl⟩
  | c :: cs =>
    rw [Markup.arityOkAll, Bool.and_eq_true] at h
    obtain ⟨n, hn⟩ := build_ok_of_arityOk c h.1
    obtain ⟨ns, hns⟩ := buildAll_ok_of_arityOk cs h.2
    exact ⟨_, by rw [Markup.buildAll, hn, hns]⟩
end

theorem Counted_El_apply (name : String) (cs : List Counted.Node) (ns : List Node)
    (w : Nat) (hlen : cs.length = ns.length)
    (hfold : ∀ acc k, cs.foldl Counted.El.step (acc, k) = (ns.foldl El.step acc, k + w))
    (k : Nat) :
    Counted.El name cs k = (El name ns (), k + w) := by
  by_cases h0 : ns.length = 0
  · have hnil : ns = [] := List.length_eq_zero.mp h0
    have hcnil : cs = [] := List.length_eq_zero.mp (hlen.trans h0)
    subst hnil
    subst hcnil
    have hw := hfold ("", "") 0
    simp only [List.foldl_nil, Prod.mk.injEq, true_and] at hw
    have hw0 : w = 0 := by omega
    subst hw0
    rfl
  · have hc0 : cs.length ≠ 0 := by rw [hlen]; exact h0
    simp only [Counted.El, El, if_neg h0, if_neg hc0, hfold]
    split <;> rfl

mutual
theorem buildCounted_refines (m : Markup) (node : Node) (h : m.build = .ok node) :
    ∃ cnode, m.buildCounted = .ok cnode ∧ cnode.isAttr = node.isAttr ∧
      node.isAttr = m.isAttr ∧ ∀ k, cnode.Render k = (node.Render, k + m.calls) := by
  match m with
  | .el name children =>
    cases hb : Markup.buildAll children with
    | error e => rw [Markup.build, hb] at h; cases h
    | ok ns =>
      rw [Markup.build, hb] at h
      cases h
      obtain ⟨cs, hcs, hlen, hfold⟩ := buildAllCounted_refines children ns hb
      refine ⟨.ofNodeFunc (Counted.El name cs), by rw [Markup.buildCounted, hcs], rfl, rfl, ?_⟩
      intro k
      have happ := Counted_El_apply name cs ns (Markup.callsAll children) hlen hfold (k + 1)
      simp only [Counted.Node.Render, Counted.NodeFunc.Render, Node.Render, NodeFunc.Render,
        Markup.calls, happ]
      congr 1
      omega
  | .attr name value =>
    match value with
    | [] => cases h; exact ⟨_, rfl, rfl, rfl, fun k => rfl⟩
    | [v] => cases h; exact ⟨_, rfl, rfl, rfl, fun k => rfl⟩
    | _ :: _ :: _ => cases h
  | .text t => cases h; exact ⟨_, rfl, rfl, rfl, fun k => rfl⟩
  | .raw t => cases h; exact ⟨_, rfl, rfl, rfl, fun k => rfl⟩
theorem buildAllCounted_refines (ms : List Markup) (ns : List Node)
    (h : Markup.buildAll ms = .ok ns) :
    ∃ cs, Markup.buildAllCounted ms = .ok cs ∧ cs.length = ns.length ∧
      ∀ acc k, cs.foldl Counted.El.step (acc, k)
        = (ns.foldl El.step acc, k + Markup.callsAll ms) := by
  match ms with
  | [] => cases h; exact ⟨_, rfl, rfl, fun acc k => rfl⟩
  | c :: rest =>
    cases hc : c.build with
    | error e => rw [Markup.buildAll, hc] at h; cases h
    | ok n =>
      cases hr : Markup.buildAll rest with
      | error e => rw [Markup.buildAll, hc, hr] at h; cases h
      | ok ns1 =>
        rw [Markup.buildAll, hc, hr] at h
        cases h
        obtain ⟨cn, hcn, hattr, hmattr, hrender⟩ := buildCounted_refines c n hc
        obtain ⟨cs1, hcs1, hlen, hfold⟩ := buildAllCounted_refines rest ns1 hr
        refine ⟨cn :: cs1, by rw [Markup.buildAllCounted, hcn, hcs1], by simp [hlen], ?_⟩
        intro acc k
        rw [List.foldl_cons, List.foldl_cons, Markup.callsAll, ← hmattr]
        cases hn : n.isAttr with
        | true =>
          have hstep : Counted.El.step (acc, k) cn = (El.step acc n, k + c.calls) := by
            simp only [Counted.El.step, El.step, hattr, hn, hrender, if_true]
          rw [hstep, hfold]
          simp only [if_true, Nat.add_assoc]
        | false =>
          have hstep : Counted.El.step (acc, k) cn = (El.step acc n, k + 2 * c.calls) := by
            simp only [Counted.El.step, El.step, hattr, hn, hrender, Bool.false_eq_true,
              if_false, Prod.mk.injEq, true_and]
            omega
          rw [hstep, hfold]
          simp only [Bool.false_eq_true, if_false, Nat.add_assoc]
end

theorem renderCalls_eq_calls (m : Markup) (node : Node) (h : m.build = .ok node) :
    m.renderCalls = some m.calls := by
  obtain ⟨cnode, hc, _, _, hrender⟩ := buildCounted_refines m node h
  simp only [Markup.renderCalls, hc, hrender, Nat.zero_add]

mutual
theorem calls_lt_two_pow_size (m : Markup) : m.calls + 1 ≤ 2 ^ m.size := by
  match m with
  | .el name children =>
    have ih := callsAll_le_two_pow_sizeAll children
    rw [Markup.calls, Markup.size, Nat.add_comm 1 (Markup.sizeAll children)]
    omega
  | .attr name value => simp [Markup.calls, Markup.size]
  | .text t => simp [Markup.calls, Markup.size]
  | .raw t => simp [Markup.calls, Markup.size]
theorem callsAll_le_two_pow_sizeAll (ms : List Markup) :
    Markup.callsAll ms + 2 ≤ 2 ^ (Markup.sizeAll ms + 1) := by
  match ms with
  | [] => simp [Markup.callsAll, Markup.sizeAll]
  | c :: cs =>
    have ihc := calls_lt_two_pow_size c
    have ihs := callsAll_le_two_pow_sizeAll cs
    have hstep : (if c.isAttr then c.calls else 2 * c.calls) ≤ 2 * c.calls := by
      split <;> omega
    have hpos : 1 ≤ 2 ^ Markup.sizeAll cs := Nat.one_le_two_pow
    rw [Markup.callsAll, Markup.sizeAll]
    rw [Nat.pow_succ] at ihs
    rw [Nat.pow_succ, Nat.pow_add]
    generalize 2 ^ c.size = P at ihc ⊢
    generalize 2 ^ Markup.sizeAll cs = Q at ihs hpos ⊢
    generalize Markup.callsAll cs = b at ihs ⊢
    generalize c.calls = a at ihc hstep ⊢
    generalize (if c.isAttr = true then a else 2 * a) = w at hstep ⊢
    nlinarith
end

theorem chain_isAttr (depth : Nat) : (Markup.chain depth).isAttr = false := by
  cases depth <;> rfl

theorem chain_arityOk (depth : Nat) : (Markup.chain depth).arityOk = true := by
  induction depth with
  | zero => rfl
  | succ d ih => simp [Markup.chain, Markup.arityOk, Markup.arityOkAll, ih]

theorem chain_calls (depth : Nat) : (Markup.chain depth).calls + 1 = 2 ^ (depth + 1) := by
  induction depth with
  | zero => rfl
  | succ d ih =>
    rw [Markup.chain, Markup.calls, Markup.callsAll, Markup.callsAll, chain_isAttr,
      Nat.pow_succ]
    simp only [Bool.false_eq_true, if_false]
    omega

theorem chain_size (depth : Nat) : (Markup.chain depth).size = depth + 1 := by
  induction depth with
  | zero => rfl
  | succ d ih =>
    rw [Markup.chain, Markup.size, Markup.sizeAll, Markup.sizeAll, ih]
    omega

/-! ## Rendering of built nodes -/

/-- C11: for every term built with `El`, `Attr` with zero or one value, `Text`
and `Raw`, construction returns a node without panicking, and one call of
`Render` on it returns its string after finitely many `Render` invocations,
fewer than two to the power of the number of nodes. -/
theorem Render_never_fails (m : Markup) (h : m.arityOk = true) :
    ∃ node, m.build = .ok node ∧
      ∃ cnode, m.buildCounted = .ok cnode ∧
        (∀ k, (cnode.Render k).1 = node.Render) ∧
        ∃ n, m.renderCalls = some n ∧ n < 2 ^ m.size := by
  obtain ⟨node, hnode⟩ := build_ok_of_arityOk m h
  obtain ⟨cnode, hc, _, _, hrender⟩ := buildCounted_refines m node hnode
  refine ⟨node, hnode, cnode, hc, fun k => by rw [hrender], m.calls,
    renderCalls_eq_calls m node hnode, ?_⟩
  have hb := calls_lt_two_pow_size m
  omega

/-- Witness of C11: an element with the empty name, attributes with empty name
and value, empty text, an element without children and a text with a NUL and a
non-ASCII character is built and renders. -/
theorem Render_never_fails_witness :
    (Markup.el "" [.attr "" [], .attr "x" [""], .text "", .raw "", .el "p" [],
        .text "\x00<é"]).arityOk = true ∧
    (∃ node, (Markup.el "" [.attr "" [], .attr "x" [""], .text "", .raw "", .el "p" [],
        .text "\x00<é"]).build = .ok node ∧
      ∃ cnode, (Markup.el "" [.attr "" [], .attr "x" [""], .text "", .raw "", .el "p" [],
          .text "\x00<é"]).buildCounted = .ok cnode ∧
        (∀ k, (cnode.Render k).1 = node.Render) ∧
        ∃ n, (Markup.el "" [.attr "" [], .attr "x" [""], .text "", .raw "", .el "p" [],
          .text "\x00<é"]).renderCalls = some n ∧
          n < 2 ^ (Markup.el "" [.attr "" [], .attr "x" [""], .text "", .raw "", .el "p" [],
            .text "\x00<é"]).size) ∧
    (El "" [.ofAttr ⟨"", none⟩, .ofAttr ⟨"x", some ""⟩, .ofNodeFunc (Text ""),
        .ofNodeFunc (Raw ""), .ofNodeFunc (El "p" []), .ofNodeFunc (Text "\x00<é")]).Render
      = "<  x=\"\"><p/>\uFFFD&lt;é</>" :=
  ⟨by decide,
    Render_never_fails (Markup.el "" [.attr "" [], .attr "x" [""], .text "", .raw "",
      .el "p" [], .text "\x00<é"]) (by decide),
    by decide⟩

/-- C14 (the code at the failing inputs): one call of `Render` on
`El("div", Text("x"))`, a tree of two nodes, performs three `Render`
invocations, two of them on the text child; and on a chain of `depth` nested
elements around one text node, a tree of `depth + 1` nodes, it performs
`2 ^ (depth + 1) - 1` invocations. -/
theorem Render_invocations_chain (depth : Nat) :
    (Markup.el "div" [.text "x"]).renderCalls = some 3 ∧
    (Markup.el "div" [.text "x"]).size = 2 ∧
    (Markup.chain depth).renderCalls = some (2 ^ (depth + 1) - 1) ∧
    (Markup.chain depth).size = depth + 1 ∧
    (Markup.chain 9).renderCalls = some 1023 := by
  have hcalls : ∀ d, (Markup.chain d).renderCalls = some (2 ^ (d + 1) - 1) := by
    intro d
    obtain ⟨node, hnode⟩ := build_ok_of_arityOk (Markup.chain d) (chain_arityOk d)
    rw [renderCalls_eq_calls _ node hnode]
    have hc := chain_calls d
    congr 1
    omega
  exact ⟨by decide, by decide, hcalls depth, chain_size depth, hcalls 9⟩

/-! ## The code on the store -/

theorem Mem_El_apply (name : String) (ns : List Mem.Node) (pns : List Node) (st : Mem.Store)
    (hlen : ns.length = pns.length)
    (hfold : ∀ acc, ns.foldl Mem.El.step (acc, st) = (pns.foldl El.step acc, st)) :
    Mem.El name ns st = (El name pns (), st) := by
  by_cases h0 : pns.length = 0
  · have hn0 : ns.length = 0 := hlen.trans h0
    simp only [Mem.El, El, if_pos h0, if_pos hn0]
  · have hn0 : ns.length ≠ 0 := by rw [hlen]; exact h0
    simp only [Mem.El, El, if_neg h0, if_neg hn0, hfold]
    split <;> rfl

mutual
theorem Mem_build_refines (m : Mem.Markup) (node : Mem.Node) (h : m.build = .ok node)
    (st : Mem.Store) :
    ∃ pnode, (m.deref st).build = .ok pnode ∧ node.isAttr = pnode.isAttr ∧
      node.Render st = (pnode.Render, st) := by
  match m with
  | .el name children =>
    cases hb : Mem.Markup.buildAll children with
    | error e => rw [Mem.Markup.build, hb] at h; cases h
    | ok ns =>
      rw [Mem.Markup.build, hb] at h
      cases h
      obtain ⟨pns, hpns, hlen, hfold⟩ := Mem_buildAll_refines children ns hb st
      refine ⟨.ofNodeFunc (El name pns), by rw [Mem.Markup.deref, Markup.build, hpns],
        rfl, ?_⟩
      exact Mem_El_apply name ns pns st hlen hfold
  | .attr name value =>
    match value with
    | ⟨ptr, 0⟩ => cases h; exact ⟨_, rfl, rfl, rfl⟩
    | ⟨ptr, 1⟩ => cases h; exact ⟨_, rfl, rfl, rfl⟩
    | ⟨ptr, _ + 2⟩ => cases h
  | .text t => cases h; exact ⟨_, rfl, rfl, rfl⟩
  | .raw t => cases h; exact ⟨_, rfl, rfl, rfl⟩
theorem Mem_buildAll_refines (ms : List Mem.Markup) (ns : List Mem.Node)
    (h : Mem.Markup.buildAll ms = .ok ns) (st : Mem.Store) :
    ∃ pns, Markup.buildAll (Mem.Markup.derefAll ms st) = .ok pns ∧ ns.length = pns.length ∧
      ∀ acc, ns.foldl Mem.El.step (acc, st) = (pns.foldl El.step acc, st) := by
  match ms with
  | [] => cases h; exact ⟨_, rfl, rfl, fun acc => rfl⟩
  | c :: rest =>
    cases hc : c.build with
    | error e => rw [Mem.Markup.buildAll, hc] at h; cases h
    | ok n =>
      cases hr : Mem.Markup.buildAll rest with
      | error e => rw [Mem.Markup.buildAll, hc, hr] at h; cases h
      | ok ns1 =>
        rw [Mem.Markup.buildAll, hc, hr] at h
        cases h
        obtain ⟨pn, hpn, hattr, hrender⟩ := Mem_build_refines c n hc st
        obtain ⟨pns1, hpns1, hlen, hfold⟩ := Mem_buildAll_refines rest ns1 hr st
        refine ⟨pn :: pns1, by rw [Mem.Markup.derefAll, Markup.buildAll, hpn, hpns1],
          by simp [hlen], ?_⟩
        intro acc
        have hstep : Mem.El.step (acc, st) n = (El.step acc pn, st) := by
          cases hp : pn.isAttr <;>
            simp [Mem.El.step, El.step, hattr, hp, hrender]
        rw [List.foldl_cons, List.foldl_cons, hstep, hfold]
end

mutual
theorem Mem_deref_congr (m : Mem.Markup) (node : Mem.Node) (h : m.build = .ok node)
    (st st2 : Mem.Store) (hp : ∀ p ∈ m.pointers, st2 p = st p) :
    m.deref st2 = m.deref st := by
  match m with
  | .el name children =>
    cases hb : Mem.Markup.buildAll children with
    | error e => rw [Mem.Markup.build, hb] at h; cases h
    | ok ns =>
      rw [Mem.Markup.deref, Mem.Markup.deref,
        Mem_derefAll_congr children ns hb st st2 (by simpa [Mem.Markup.pointers] using hp)]
  | .attr name value =>
    match value with
    | ⟨ptr, 0⟩ => rfl
    | ⟨ptr, 1⟩ =>
      have hptr : st2 ptr = st ptr := hp ptr (by simp [Mem.Markup.pointers])
      simp [Mem.Markup.deref, Mem.Slice.read, List.range_succ, hptr]
    | ⟨ptr, _ + 2⟩ => cases h
  | .text t => rfl
  | .raw t => rfl
theorem Mem_derefAll_congr (ms : List Mem.Markup) (ns : List Mem.Node)
    (h : Mem.Markup.buildAll ms = .ok ns)
    (st st2 : Mem.Store) (hp : ∀ p ∈ Mem.Markup.pointersAll ms, st2 p = st p) :
    Mem.Markup.derefAll ms st2 = Mem.Markup.derefAll ms st := by
  match ms with
  | [] => rfl
  | c :: rest =>
    cases hc : c.build with
    | error e => rw [Mem.Markup.buildAll, hc] at h; cases h
    | ok n =>
      cases hr : Mem.Markup.buildAll rest with
      | error e => rw [Mem.Markup.buildAll, hc, hr] at h; cases h
      | ok ns1 =>
        have hp1 : ∀ p ∈ c.pointers, st2 p = st p := fun p hmem =>
          hp p (by rw [Mem.Markup.pointersAll]; exact List.mem_append_left _ hmem)
        have hp2 : ∀ p ∈ Mem.Markup.pointersAll rest, st2 p = st p := fun p hmem =>
          hp p (by rw [Mem.Markup.pointersAll]; exact List.mem_append_right _ hmem)
        rw [Mem.Markup.derefAll, Mem.Markup.derefAll, Mem_deref_congr c n hc st st2 hp1,
          Mem_derefAll_congr rest ns1 hr st st2 hp2]
end

/-- C12 (as stated, refuted): after `vs := []string{"a"}` and
`n := Attr("x", vs...)` the node `n` keeps the address of `vs[0]`; it renders
` x="a"`, and once the caller has assigned `vs[0] = "b"` the same node renders
` x="b"`. -/
theorem Render_idempotent_counterexample :
    (Mem.Markup.attr "x" ⟨0, 1⟩).build = .ok (.ofAttr ⟨"x", some 0⟩) ∧
    ((Mem.Node.ofAttr ⟨"x", some 0⟩).Render (fun _ => "a")).1 = " x=\"a\"" ∧
    ((Mem.Node.ofAttr ⟨"x", some 0⟩).Render (Mem.Store.set (fun _ => "a") 0 "b")).1
      = " x=\"b\"" ∧
    ((Mem.Node.ofAttr ⟨"x", some 0⟩).Render (Mem.Store.set (fun _ => "a") 0 "b")).1
      ≠ ((Mem.Node.ofAttr ⟨"x", some 0⟩).Render (fun _ => "a")).1 :=
  ⟨rfl, by decide, by decide, by decide⟩

/-- C12 (amended): for every node built with `El`, `Attr`, `Text` and `Raw`,
`Render` writes no variable, so a second call right after the first returns the
same string; two calls return the same string whenever the slice elements that
`Attr` kept a pointer to hold the same strings at both calls; and two nodes
built from arguments of equal value render to equal strings. -/
theorem Render_idempotent (m : Mem.Markup) (node : Mem.Node) (h : m.build = .ok node) :
    (∀ st, (node.Render st).2 = st) ∧
    (∀ st, (node.Render (node.Render st).2).1 = (node.Render st).1) ∧
    (∀ st st2, (∀ p ∈ m.pointers, st2 p = st p) →
      (node.Render st2).1 = (node.Render st).1) ∧
    (∀ (m2 : Mem.Markup) (node2 : Mem.Node) (st : Mem.Store),
      m2.build = .ok node2 → m2.deref st = m.deref st →
      (node2.Render st).1 = (node.Render st).1) := by
  have hfix : ∀ st, (node.Render st).2 = st := by
    intro st
    obtain ⟨pnode, _, _, hrender⟩ := Mem_build_refines m node h st
    rw [hrender]
  refine ⟨hfix, fun st => by rw [hfix st], ?_, ?_⟩
  · intro st st2 hp
    obtain ⟨pnode, hpnode, _, hrender⟩ := Mem_build_refines m node h st
    obtain ⟨pnode2, hpnode2, _, hrender2⟩ := Mem_build_refines m node h st2
    rw [Mem_deref_congr m node h st st2 hp, hpnode] at hpnode2
    cases hpnode2
    rw [hrender, hrender2]
  · intro m2 node2 st h2 hderef
    obtain ⟨pnode, hpnode, _, hrender⟩ := Mem_build_refines m node h st
    obtain ⟨pnode2, hpnode2, _, hrender2⟩ := Mem_build_refines m2 node2 h2 st
    rw [hderef, hpnode] at hpnode2
    cases hpnode2
    rw [hrender, hrender2]

/-- Witness of C12: `El("a", Attr("href", vs...), Text("go"))` with the slice
`vs` of one element at address 0. -/
theorem Render_idempotent_witness :
    (Mem.Markup.el "a" [.attr "href" ⟨0, 1⟩, .text "go"]).build
      = .ok (.ofNodeFunc (Mem.El "a" [.ofAttr ⟨"href", some 0⟩, .ofNodeFunc (Mem.Text "go")])) ∧
    ((Mem.Node.ofNodeFunc
        (Mem.El "a" [.ofAttr ⟨"href", some 0⟩, .ofNodeFunc (Mem.Text "go")])).Render
      (fun _ => "/x")).1 = "<a href=\"/x\">go</a>" ∧
    (∀ st, ((Mem.Node.ofNodeFunc
        (Mem.El "a" [.ofAttr ⟨"href", some 0⟩, .ofNodeFunc (Mem.Text "go")])).Render st).2
      = st) :=
  ⟨rfl, by decide,
    (Render_idempotent (Mem.Markup.el "a" [.attr "href" ⟨0, 1⟩, .text "go"])
      (.ofNodeFunc (Mem.El "a" [.ofAttr ⟨"href", some 0⟩, .ofNodeFunc (Mem.Text "go")]))
      rfl).1⟩

/-! ## Pre-rendered children -/

theorem Mem_step_of_pure (c : Mem.Node) (s : String) (hc : c.isAttr = false)
    (hpure : ∀ st, c.Render st = (s, st)) (acc : (String × String) × Mem.Store) :
    Mem.El.step acc (.ofNodeFunc (Mem.Raw s)) = Mem.El.step acc c := by
  have hl : Mem.El.step acc (.ofNodeFunc (Mem.Raw s)) = ((acc.1.1, acc.1.2 ++ s), acc.2) := rfl
  have hr : Mem.El.step acc c = ((acc.1.1, acc.1.2 ++ s), acc.2) := by
    unfold Mem.El.step
    simp only [hc, hpure, Bool.false_eq_true, if_false]
  rw [hl, hr]

/-- C15 (as stated, refuted): the caller's node
`NodeFunc(func() string { n += "I"; return n })` is not an attribute and renders
`I` when `n` is empty, so `El("div", Raw(c.Render()))` renders `<div>I</div>`,
while `El("div", c)` renders `<div>II</div>`. -/
theorem El_render_raw_injection_counterexample :
    (Mem.Node.ofNodeFunc Mem.appender).isAttr = false ∧
    ((Mem.Node.ofNodeFunc Mem.appender).Render (fun _ => "")).1 = "I" ∧
    ((Mem.El "div" [.ofNodeFunc (Mem.Raw "I")]).Render (fun _ => "")).1 = "<div>I</div>" ∧
    ((Mem.El "div" [.ofNodeFunc Mem.appender]).Render (fun _ => "")).1 = "<div>II</div>" ∧
    ((Mem.El "div" [.ofNodeFunc (Mem.Raw "I")]).Render (fun _ => "")).1
      ≠ ((Mem.El "div" [.ofNodeFunc Mem.appender]).Render (fun _ => "")).1 :=
  ⟨rfl, by decide, by decide, by decide, by decide⟩

/-- C15 (amended): for every tag name, every child list and every non-attribute
child in it whose `Render` returns the same string at every call and writes no
variable, replacing the child in place by `Raw` of its rendering leaves the
rendering of the element unchanged. -/
theorem El_render_raw_injection (name : String) (before after : List Mem.Node)
    (c : Mem.Node) (s : String) (hc : c.isAttr = false)
    (hpure : ∀ st, c.Render st = (s, st)) (st : Mem.Store) :
    (Mem.El name (before ++ .ofNodeFunc (Mem.Raw s) :: after)).Render st
      = (Mem.El name (before ++ c :: after)).Render st := by
  have hfold : ∀ acc, (before ++ .ofNodeFunc (Mem.Raw s) :: after).foldl Mem.El.step acc
      = (before ++ c :: after).foldl Mem.El.step acc := by
    intro acc
    rw [List.foldl_append, List.foldl_append, List.foldl_cons, List.foldl_cons,
      Mem_step_of_pure c s hc hpure]
  simp only [Mem.NodeFunc.Render, Mem.El, hfold, List.length_append, List.length_cons]

/-- Witness of C15: in `El("p", Attr("id", vs...), El("b", Text("<")), Text("!"))`
replacing the inner element by `Raw("<b>&lt;</b>")` leaves `<p id="a"><b>&lt;</b>!</p>`. -/
theorem El_render_raw_injection_witness :
    ((Mem.El "p" [.ofAttr ⟨"id", some 0⟩, .ofNodeFunc (Mem.Raw "<b>&lt;</b>"),
        .ofNodeFunc (Mem.Text "!")]).Render (fun _ => "a"))
      = ((Mem.El "p" [.ofAttr ⟨"id", some 0⟩,
        .ofNodeFunc (Mem.El "b" [.ofNodeFunc (Mem.Text "<")]),
        .ofNodeFunc (Mem.Text "!")]).Render (fun _ => "a")) ∧
    ((Mem.El "p" [.ofAttr ⟨"id", some 0⟩,
        .ofNodeFunc (Mem.El "b" [.ofNodeFunc (Mem.Text "<")]),
        .ofNodeFunc (Mem.Text "!")]).Render (fun _ => "a")).1
      = "<p id=\"a\"><b>&lt;</b>!</p>" :=
  ⟨El_render_raw_injection "p" [.ofAttr ⟨"id", some 0⟩] [.ofNodeFunc (Mem.Text "!")]
      (.ofNodeFunc (Mem.El "b" [.ofNodeFunc (Mem.Text "<")])) "<b>&lt;</b>" rfl
      (fun _ => rfl) (fun _ => "a"),
    by decide⟩

end Gomponents
